import Mathlib

/-!
# Verification of the resume analyzer module (`analyzer.py`)

Shallow embedding of the module's functions.  External dependencies are
modelled as parameters:

* the NLTK word tokenizer (`word_tokenize`) becomes a parameter
  `wt : String → Option (List String)`, where `none` models the call
  raising an exception (the code then falls back to whitespace splitting);
* the NLTK English stopword list becomes `sw : Option (List String)`,
  where `none` models `stopwords.words("english")` raising (the code then
  skips stopword filtering);
* PyMuPDF's `fitz.open` / page iteration becomes a parameter
  `openPdf : String → Option (List String)` returning the per-page texts,
  `none` modelling any exception while opening or reading.

Python string primitives (`str.lower`, `str.split` with no argument,
`str.isalpha`) are translated over `List Char`; alphabetic and lowercase
handling is modelled at ASCII granularity, which is all the taxonomy and
the claims exercise.
-/

namespace Analyzer

/-- Python `str.lower()` on one character (ASCII range). -/
def pyCharLower (c : Char) : Char :=
  if c = 'A' then 'a' else if c = 'B' then 'b' else if c = 'C' then 'c'
  else if c = 'D' then 'd' else if c = 'E' then 'e' else if c = 'F' then 'f'
  else if c = 'G' then 'g' else if c = 'H' then 'h' else if c = 'I' then 'i'
  else if c = 'J' then 'j' else if c = 'K' then 'k' else if c = 'L' then 'l'
  else if c = 'M' then 'm' else if c = 'N' then 'n' else if c = 'O' then 'o'
  else if c = 'P' then 'p' else if c = 'Q' then 'q' else if c = 'R' then 'r'
  else if c = 'S' then 's' else if c = 'T' then 't' else if c = 'U' then 'u'
  else if c = 'V' then 'v' else if c = 'W' then 'w' else if c = 'X' then 'x'
  else if c = 'Y' then 'y' else if c = 'Z' then 'z' else c

/-- Python `str.lower()`. -/
def pyLower (s : String) : String := ⟨s.data.map pyCharLower⟩

/-- Python `str.isalpha()`: nonempty and every character alphabetic. -/
def pyIsAlpha (s : String) : Bool := !s.data.isEmpty && s.data.all Char.isAlpha

/-- Helper for `pySplitWs`: scan characters, `acc` holds the (reversed)
current word. -/
def splitWsAux : List Char → List Char → List String
  | [], acc => if acc.isEmpty then [] else [⟨acc.reverse⟩]
  | c :: cs, acc =>
    if c.isWhitespace then
      if acc.isEmpty then splitWsAux cs [] else ⟨acc.reverse⟩ :: splitWsAux cs []
    else splitWsAux cs (c :: acc)

/-- Python `str.split()` with no argument: split on runs of whitespace,
dropping empty pieces. -/
def pySplitWs (s : String) : List String := splitWsAux s.data []

/-- The static taxonomy `skill_keywords` of `analyzer.py`, an insertion
ordered mapping field name ↦ keyword list (Python 3.7+ dicts preserve
insertion order). -/
def skill_keywords : List (String × List String) :=
  [ ("data science",
      ["python", "pandas", "numpy", "scikit-learn", "tensorflow", "keras", "pytorch",
       "machine learning", "deep learning", "nlp", "statistics", "sql", "modeling"]),
    ("web development",
      ["html", "css", "javascript", "react", "vue", "angular", "node", "express",
       "django", "flask", "typescript"]),
    ("marketing", ["marketing", "seo", "branding", "advertising", "content", "campaign"]),
    ("sales", ["sales", "crm", "negotiation", "lead generation", "b2b", "b2c"]),
    ("graphic design", ["photoshop", "illustrator", "figma", "ui", "ux", "adobe"]),
    ("medicine", ["medical", "clinical", "patient", "diagnosis", "surgery", "nurse"]),
    ("finance", ["accounting", "finance", "budgeting", "excel", "audit", "tax"]),
    ("education", ["teacher", "curriculum", "lesson", "training", "student"]),
    ("engineering", ["cad", "mechanical", "electrical", "civil", "autocad"]),
    ("law", ["law", "legal", "contract", "compliance", "litigation"]) ]

/-- `_tokenize` of `analyzer.py`.  `text or ""` handles `None`; the text is
lowercased; `word_tokenize` is attempted and on exception (`wt _ = none`)
the code falls back to `text.split()`; stopwords are fetched best effort
(`sw = none` models the lookup raising, leaving the stopword set empty);
finally only alphabetic non-stopword tokens are kept. -/
def _tokenize (wt : String → Option (List String)) (sw : Option (List String))
    (text : Option String) : List String :=
  let t := pyLower (text.getD "")
  let tokens := (wt t).getD (pySplitWs t)
  let sws := sw.getD []
  tokens.filter (fun tk => pyIsAlpha tk && !sws.contains tk)

/-- The per-keyword match test shared by the loop bodies of
`extract_skills` and `detect_job_field`: multi-word keywords require every
constituent word in the token set, single-word keywords require exact
presence of `kw.lower()`. -/
def kwMatches (tokens : List String) (kw : String) : Bool :=
  let parts := pySplitWs (pyLower kw)
  if 1 < parts.length then parts.all (fun p => tokens.contains p)
  else tokens.contains (pyLower kw)

/-- The `detected` list built by the nested loop of `extract_skills`:
fields in taxonomy order, keywords in list order, keeping those that
match. -/
def detectedList (tokens : List String) : List String :=
  (skill_keywords.map (fun fk => fk.2.filter (fun kw => kwMatches tokens kw))).flatten

/-- The de-duplication loop of `extract_skills` (`seen` set + `uniq`
accumulator), keeping first occurrences. -/
def dedupAux (seen : List String) : List String → List String
  | [] => []
  | k :: rest =>
    if seen.contains k then dedupAux seen rest else k :: dedupAux (k :: seen) rest

/-- `extract_skills` of `analyzer.py`. -/
def extract_skills (wt : String → Option (List String)) (sw : Option (List String))
    (text : Option String) : List String :=
  dedupAux [] (detectedList (_tokenize wt sw text))

/-- The per-field score of `detect_job_field`: number of keywords of the
field that match the token set. -/
def fieldScore (tokens : List String) (kws : List String) : Nat :=
  (kws.filter (fun kw => kwMatches tokens kw)).length

/-- The best-field fold of `detect_job_field`: starting from
`("General", 0)`, a field replaces the current best only on a strictly
greater score. -/
def bestAux (tokens : List String) (b : String × Nat)
    (l : List (String × List String)) : String × Nat :=
  l.foldl (fun best fk =>
    if fieldScore tokens fk.2 > best.2 then (fk.1, fieldScore tokens fk.2) else best) b

/-- `detect_job_field` of `analyzer.py`. -/
def detect_job_field (wt : String → Option (List String)) (sw : Option (List String))
    (text : Option String) : String :=
  (bestAux (_tokenize wt sw text) ("General", 0) skill_keywords).1

/-- `extract_text_from_pdf` of `analyzer.py`: `fitz.open` and the page
iteration are modelled by `openPdf`, with `none` for any exception; on
success the page texts are joined by newline. -/
def extract_text_from_pdf (openPdf : String → Option (List String))
    (pdf_path : String) : String :=
  match openPdf pdf_path with
  | none => ""
  | some pages => String.intercalate "\n" pages

end Analyzer

namespace Analyzer

/-! ## Helper lemmas about the de-duplication loop -/

theorem dedupAux_cons_of_mem {seen : List String} {k : String} (rest : List String)
    (h : k ∈ seen) : dedupAux seen (k :: rest) = dedupAux seen rest := by
  simp [dedupAux, List.elem_eq_mem, h]

theorem dedupAux_cons_of_not_mem {seen : List String} {k : String} (rest : List String)
    (h : k ∉ seen) : dedupAux seen (k :: rest) = k :: dedupAux (k :: seen) rest := by
  simp [dedupAux, List.elem_eq_mem, h]

theorem mem_dedupAux {x : String} :
    ∀ {l seen : List String}, x ∈ dedupAux seen l ↔ (x ∈ l ∧ x ∉ seen) := by
  intro l
  induction l with
  | nil => intro seen; simp [dedupAux]
  | cons k rest ih =>
    intro seen
    by_cases h : k ∈ seen
    · rw [dedupAux_cons_of_mem rest h, ih]
      constructor
      · rintro ⟨hx, hns⟩; exact ⟨List.mem_cons_of_mem _ hx, hns⟩
      · rintro ⟨hx, hns⟩
        rcases List.mem_cons.mp hx with h1 | h1
        · exact absurd (h1 ▸ h) hns
        · exact ⟨h1, hns⟩
    · rw [dedupAux_cons_of_not_mem rest h]
      constructor
      · intro hx
        rcases List.mem_cons.mp hx with h1 | h1
        · exact ⟨h1 ▸ List.mem_cons_self k rest, h1 ▸ h⟩
        · obtain ⟨hxr, hns⟩ := ih.mp h1
          exact ⟨List.mem_cons_of_mem _ hxr,
            fun hc => hns (List.mem_cons_of_mem _ hc)⟩
      · rintro ⟨hx, hns⟩
        by_cases hxk : x = k
        · exact hxk ▸ List.mem_cons_self _ _
        · rcases List.mem_cons.mp hx with h1 | h1
          · exact absurd h1 hxk
          · refine List.mem_cons_of_mem _ (ih.mpr ⟨h1, fun hc => ?_⟩)
            rcases List.mem_cons.mp hc with h2 | h2
            · exact hxk h2
            · exact hns h2

theorem dedupAux_nodup : ∀ (l seen : List String), (dedupAux seen l).Nodup := by
  intro l
  induction l with
  | nil => intro seen; simp [dedupAux]
  | cons k rest ih =>
    intro seen
    by_cases h : k ∈ seen
    · rw [dedupAux_cons_of_mem rest h]; exact ih seen
    · rw [dedupAux_cons_of_not_mem rest h]
      refine List.nodup_cons.mpr ⟨fun hc => ?_, ih (k :: seen)⟩
      exact (mem_dedupAux.mp hc).2 (List.mem_cons_self k seen)

theorem dedupAux_sublist : ∀ (l seen : List String), (dedupAux seen l).Sublist l := by
  intro l
  induction l with
  | nil => intro seen; simp [dedupAux]
  | cons k rest ih =>
    intro seen
    by_cases h : k ∈ seen
    · rw [dedupAux_cons_of_mem rest h]; exact (ih seen).cons k
    · rw [dedupAux_cons_of_not_mem rest h]; exact (ih (k :: seen)).cons₂ k

theorem dedupAux_pairwise_indexOf :
    ∀ (l seen : List String),
      (dedupAux seen l).Pairwise (fun a b => l.indexOf a < l.indexOf b) := by
  intro l
  induction l with
  | nil => intro seen; simp [dedupAux]
  | cons k rest ih =>
    intro seen
    by_cases h : k ∈ seen
    · rw [dedupAux_cons_of_mem rest h]
      refine (ih seen).imp_of_mem ?_
      intro a b ha hb hab
      have hak : k ≠ a := fun hc => (mem_dedupAux.mp ha).2 (hc ▸ h)
      have hbk : k ≠ b := fun hc => (mem_dedupAux.mp hb).2 (hc ▸ h)
      rw [List.indexOf_cons_ne _ hak, List.indexOf_cons_ne _ hbk]
      exact Nat.succ_lt_succ hab
    · rw [dedupAux_cons_of_not_mem rest h]
      refine List.pairwise_cons.mpr ⟨?_, ?_⟩
      · intro b hb
        have hbk : k ≠ b := fun hc =>
          (mem_dedupAux.mp hb).2 (hc ▸ List.mem_cons_self k seen)
        rw [List.indexOf_cons_self, List.indexOf_cons_ne _ hbk]
        exact Nat.succ_pos _
      · refine (ih (k :: seen)).imp_of_mem ?_
        intro a b ha hb hab
        have hak : k ≠ a := fun hc =>
          (mem_dedupAux.mp ha).2 (hc ▸ List.mem_cons_self k seen)
        have hbk : k ≠ b := fun hc =>
          (mem_dedupAux.mp hb).2 (hc ▸ List.mem_cons_self k seen)
        rw [List.indexOf_cons_ne _ hak, List.indexOf_cons_ne _ hbk]
        exact Nat.succ_lt_succ hab

/-! ## Helper lemmas about the best-field fold -/

theorem bestAux_cons (tokens : List String) (b : String × Nat)
    (fk : String × List String) (l : List (String × List String)) :
    bestAux tokens b (fk :: l) =
      bestAux tokens
        (if fieldScore tokens fk.2 > b.2 then (fk.1, fieldScore tokens fk.2) else b) l :=
  rfl

theorem bestAux_fst_mem (tokens : List String) :
    ∀ (l : List (String × List String)) (b : String × Nat),
      (bestAux tokens b l).1 = b.1 ∨ (bestAux tokens b l).1 ∈ l.map Prod.fst := by
  intro l
  induction l with
  | nil => intro b; exact Or.inl rfl
  | cons fk rest ih =>
    intro b
    rw [bestAux_cons]
    by_cases h : fieldScore tokens fk.2 > b.2
    · simp only [h, if_true]
      rcases ih (fk.1, fieldScore tokens fk.2) with h1 | h1
      · exact Or.inr (by simp [h1])
      · exact Or.inr (by simp [h1])
    · simp only [h, if_false]
      rcases ih b with h1 | h1
      · exact Or.inl h1
      · exact Or.inr (by simp [h1])

theorem bestAux_skip (tokens : List String) :
    ∀ (l : List (String × List String)) (b : String × Nat),
      (∀ fk ∈ l, fieldScore tokens fk.2 ≤ b.2) → bestAux tokens b l = b := by
  intro l
  induction l with
  | nil => intro b _; rfl
  | cons fk rest ih =>
    intro b hle
    rw [bestAux_cons]
    have h : ¬ fieldScore tokens fk.2 > b.2 :=
      Nat.not_lt.mpr (hle fk (List.mem_cons_self _ _))
    simp only [h, if_false]
    exact ih b (fun g hg => hle g (List.mem_cons_of_mem _ hg))

theorem bestAux_snd_lt (tokens : List String) {n : Nat} :
    ∀ (l : List (String × List String)) (b : String × Nat),
      (∀ fk ∈ l, fieldScore tokens fk.2 < n) → b.2 < n →
      (bestAux tokens b l).2 < n := by
  intro l
  induction l with
  | nil => intro b _ hb; exact hb
  | cons fk rest ih =>
    intro b hlt hb
    rw [bestAux_cons]
    by_cases h : fieldScore tokens fk.2 > b.2
    · simp only [h, if_true]
      exact ih _ (fun g hg => hlt g (List.mem_cons_of_mem _ hg))
        (hlt fk (List.mem_cons_self _ _))
    · simp only [h, if_false]
      exact ih b (fun g hg => hlt g (List.mem_cons_of_mem _ hg)) hb

theorem bestAux_snd_ge_init (tokens : List String) :
    ∀ (l : List (String × List String)) (b : String × Nat),
      b.2 ≤ (bestAux tokens b l).2 := by
  intro l
  induction l with
  | nil => intro b; exact Nat.le_refl _
  | cons fk rest ih =>
    intro b
    rw [bestAux_cons]
    by_cases h : fieldScore tokens fk.2 > b.2
    · simp only [h, if_true]
      exact Nat.le_trans (Nat.le_of_lt h) (ih (fk.1, fieldScore tokens fk.2))
    · simp only [h, if_false]
      exact ih b

theorem bestAux_snd_ge_of_mem (tokens : List String) :
    ∀ (l : List (String × List String)) (b : String × Nat) (fk : String × List String),
      fk ∈ l → fieldScore tokens fk.2 ≤ (bestAux tokens b l).2 := by
  intro l
  induction l with
  | nil => intro b fk h; exact absurd h (List.not_mem_nil fk)
  | cons g rest ih =>
    intro b fk hmem
    rw [bestAux_cons]
    rcases List.mem_cons.mp hmem with h1 | h1
    · subst h1
      by_cases h : fieldScore tokens fk.2 > b.2
      · simp only [h, if_true]
        exact bestAux_snd_ge_init tokens rest (fk.1, fieldScore tokens fk.2)
      · simp only [h, if_false]
        exact Nat.le_trans (Nat.not_lt.mp h) (bestAux_snd_ge_init tokens rest b)
    · exact ih _ fk h1

theorem bestAux_eq_init_of_fst (tokens : List String) :
    ∀ (l : List (String × List String)) (b : String × Nat),
      b.1 ∉ l.map Prod.fst → (bestAux tokens b l).1 = b.1 →
      bestAux tokens b l = b := by
  intro l
  induction l with
  | nil => intro b _ _; rfl
  | cons fk rest ih =>
    intro b hni hfst
    rw [bestAux_cons] at hfst ⊢
    by_cases h : fieldScore tokens fk.2 > b.2
    · exfalso
      simp only [h, if_true] at hfst
      rcases bestAux_fst_mem tokens rest (fk.1, fieldScore tokens fk.2) with h1 | h1
      · exact hni (by simp [← hfst, h1])
      · exact hni (by simp [hfst ▸ h1])
    · simp only [h, if_false] at hfst ⊢
      exact ih b (fun hc => hni (List.mem_cons_of_mem _ hc)) hfst

/-! ## Helper lemmas about lowercasing, splitting and tokenization -/

theorem pyCharLower_idem (c : Char) : pyCharLower (pyCharLower c) = pyCharLower c := by
  by_cases hA : c = 'A'
  · subst hA; decide
  by_cases hB : c = 'B'
  · subst hB; decide
  by_cases hC : c = 'C'
  · subst hC; decide
  by_cases hD : c = 'D'
  · subst hD; decide
  by_cases hE : c = 'E'
  · subst hE; decide
  by_cases hF : c = 'F'
  · subst hF; decide
  by_cases hG : c = 'G'
  · subst hG; decide
  by_cases hH : c = 'H'
  · subst hH; decide
  by_cases hI : c = 'I'
  · subst hI; decide
  by_cases hJ : c = 'J'
  · subst hJ; decide
  by_cases hK : c = 'K'
  · subst hK; decide
  by_cases hL : c = 'L'
  · subst hL; decide
  by_cases hM : c = 'M'
  · subst hM; decide
  by_cases hN : c = 'N'
  · subst hN; decide
  by_cases hO : c = 'O'
  · subst hO; decide
  by_cases hP : c = 'P'
  · subst hP; decide
  by_cases hQ : c = 'Q'
  · subst hQ; decide
  by_cases hR : c = 'R'
  · subst hR; decide
  by_cases hS : c = 'S'
  · subst hS; decide
  by_cases hT : c = 'T'
  · subst hT; decide
  by_cases hU : c = 'U'
  · subst hU; decide
  by_cases hV : c = 'V'
  · subst hV; decide
  by_cases hW : c = 'W'
  · subst hW; decide
  by_cases hX : c = 'X'
  · subst hX; decide
  by_cases hY : c = 'Y'
  · subst hY; decide
  by_cases hZ : c = 'Z'
  · subst hZ; decide
  have hfix : pyCharLower c = c := by
    simp [pyCharLower, hA, hB, hC, hD, hE, hF, hG, hH, hI, hJ, hK, hL, hM, hN,
      hO, hP, hQ, hR, hS, hT, hU, hV, hW, hX, hY, hZ]
  rw [hfix, hfix]

theorem pyLower_data (s : String) : (pyLower s).data = s.data.map pyCharLower := rfl

theorem pyLower_idem (s : String) : pyLower (pyLower s) = pyLower s := by
  show String.mk ((s.data.map pyCharLower).map pyCharLower) = String.mk (s.data.map pyCharLower)
  rw [List.map_map]
  exact congrArg String.mk
    (List.map_congr_left (fun c _ => pyCharLower_idem c))

theorem pyCharLower_whitespace {c : Char} (h : c.isWhitespace = true) :
    pyCharLower c = c := by
  have hd : ((c = ' ' ∨ c = '\t') ∨ c = '\r') ∨ c = '\n' := by
    simpa [Char.isWhitespace] using h
  rcases hd with ((h1 | h1) | h1) | h1 <;> subst h1 <;> decide

theorem splitWsAux_of_all_ws :
    ∀ (cs : List Char), (∀ c ∈ cs, c.isWhitespace = true) → splitWsAux cs [] = [] := by
  intro cs
  induction cs with
  | nil => intro _; rfl
  | cons c rest ih =>
    intro h
    have hc : c.isWhitespace = true := h c (List.mem_cons_self _ _)
    simp only [splitWsAux, hc, if_true, List.isEmpty_nil]
    exact ih (fun d hd => h d (List.mem_cons_of_mem _ hd))

theorem tokenize_all_alpha {wt : String → Option (List String)}
    {sw : Option (List String)} {text : Option String} {tk : String}
    (h : tk ∈ _tokenize wt sw text) : pyIsAlpha tk = true := by
  have h2 := (List.mem_filter.mp h).2
  exact (Bool.and_eq_true_iff.mp h2).1

theorem tokenize_eq_nil_of_ws {wt : String → Option (List String)}
    {sw : Option (List String)} {text : Option String}
    (hwt : ∀ s, (∀ c ∈ s.data, c.isWhitespace = true) → wt s = none ∨ wt s = some [])
    (hws : ∀ c ∈ (text.getD "").data, c.isWhitespace = true) :
    _tokenize wt sw text = [] := by
  set t := pyLower (text.getD "") with ht
  have htws : ∀ c ∈ t.data, c.isWhitespace = true := by
    intro c hc
    rw [ht, pyLower_data] at hc
    obtain ⟨c0, hc0, rfl⟩ := List.mem_map.mp hc
    rw [pyCharLower_whitespace (hws c0 hc0)]
    exact hws c0 hc0
  have hsplit : pySplitWs t = [] := splitWsAux_of_all_ws t.data htws
  rcases hwt t htws with h1 | h1 <;>
    simp [_tokenize, ← ht, h1, hsplit]

theorem bestAux_append (tokens : List String) (b : String × Nat)
    (l1 l2 : List (String × List String)) :
    bestAux tokens b (l1 ++ l2) = bestAux tokens (bestAux tokens b l1) l2 := by
  simp [bestAux, List.foldl_append]

theorem dedupAux_nil_eq_nil_iff (l : List String) :
    dedupAux [] l = [] ↔ l = [] := by
  cases l with
  | nil => simp [dedupAux]
  | cons k rest =>
    rw [dedupAux_cons_of_not_mem rest (List.not_mem_nil k)]
    simp

theorem mem_detectedList {tokens : List String} {x : String} :
    x ∈ detectedList tokens ↔
      ∃ fk ∈ skill_keywords, x ∈ fk.2 ∧ kwMatches tokens x = true := by
  simp only [detectedList, List.mem_flatten, List.mem_map]
  constructor
  · rintro ⟨sub, ⟨fk, hfk, rfl⟩, hx⟩
    obtain ⟨hmem, hmatch⟩ := List.mem_filter.mp hx
    exact ⟨fk, hfk, hmem, hmatch⟩
  · rintro ⟨fk, hfk, hmem, hmatch⟩
    exact ⟨fk.2.filter (fun kw => kwMatches tokens kw), ⟨fk, hfk, rfl⟩,
      List.mem_filter.mpr ⟨hmem, hmatch⟩⟩

theorem detectedList_eq_nil_iff {tokens : List String} :
    detectedList tokens = [] ↔
      ∀ fk ∈ skill_keywords, fieldScore tokens fk.2 = 0 := by
  simp only [detectedList, List.flatten_eq_nil_iff, fieldScore]
  constructor
  · intro h fk hfk
    have := h (fk.2.filter (fun kw => kwMatches tokens kw))
      (List.mem_map.mpr ⟨fk, hfk, rfl⟩)
    simp [this]
  · intro h sub hsub
    obtain ⟨fk, hfk, rfl⟩ := List.mem_map.mp hsub
    exact List.length_eq_zero.mp (h fk hfk)

/-! ## Lemmas about the unmatchable hyphenated keyword -/

theorem kwMatches_scikit_false {toks : List String}
    (halpha : ∀ tk ∈ toks, pyIsAlpha tk = true) :
    kwMatches toks "scikit-learn" = false := by
  have hs : "scikit-learn" ∉ toks := by
    intro hc
    exact absurd (halpha _ hc) (by decide)
  have h1 : pyLower "scikit-learn" = "scikit-learn" := by decide
  have h2 : pySplitWs "scikit-learn" = ["scikit-learn"] := by decide
  simp [kwMatches, h1, h2, List.elem_eq_mem, hs]

theorem scikit_not_in_extract_skills (wt : String → Option (List String))
    (sw : Option (List String)) (text : Option String) :
    "scikit-learn" ∉ extract_skills wt sw text := by
  intro hc
  have hd : "scikit-learn" ∈ detectedList (_tokenize wt sw text) :=
    (mem_dedupAux.mp (by simpa [extract_skills] using hc)).1
  obtain ⟨fk, hfk, hmem, hmatch⟩ := mem_detectedList.mp hd
  have hsc : kwMatches (_tokenize wt sw text) "scikit-learn" = false :=
    kwMatches_scikit_false (fun tk htk => tokenize_all_alpha htk)
  rw [hsc] at hmatch
  exact Bool.false_ne_true hmatch

/-! ## The claims -/

/-- Claim C1: for every input text (and any behavior of the external
tokenizer and stopword resources), `detect_job_field` returns one of the
eleven fixed labels. -/
theorem C1_detect_job_field_label_closed
    (wt : String → Option (List String)) (sw : Option (List String))
    (text : Option String) :
    detect_job_field wt sw text ∈
      ["data science", "web development", "marketing", "sales", "graphic design",
       "medicine", "finance", "education", "engineering", "law", "General"] := by
  rcases bestAux_fst_mem (_tokenize wt sw text) skill_keywords ("General", 0) with h | h
  · simp only [detect_job_field]
    rw [h]
    decide
  · simp only [detect_job_field]
    have hmap : skill_keywords.map Prod.fst =
        ["data science", "web development", "marketing", "sales", "graphic design",
         "medicine", "finance", "education", "engineering", "law"] := by decide
    rw [hmap] at h
    exact List.mem_append_left ["General"] h

/-- Claim C2: only a strictly greater score replaces the current best
field, so when the maximal positive score is attained by several fields
the one earliest in taxonomy definition order is returned: if the
taxonomy splits as `pre ++ fk :: post` with every field of `pre` scoring
strictly below `fk`, every field of `post` scoring at most `fk`, `fk`
scoring positively, and some field of `post` tying `fk`'s score, then
`detect_job_field` returns `fk`'s name. -/
theorem C2_tie_break_earliest_field
    (wt : String → Option (List String)) (sw : Option (List String))
    (text : Option String)
    (pre post : List (String × List String)) (fk : String × List String)
    (hsplit : skill_keywords = pre ++ fk :: post)
    (hpos : 0 < fieldScore (_tokenize wt sw text) fk.2)
    (hpre : ∀ g ∈ pre,
      fieldScore (_tokenize wt sw text) g.2 < fieldScore (_tokenize wt sw text) fk.2)
    (hpost : ∀ g ∈ post,
      fieldScore (_tokenize wt sw text) g.2 ≤ fieldScore (_tokenize wt sw text) fk.2)
    (_htie : ∃ g ∈ post,
      fieldScore (_tokenize wt sw text) g.2 = fieldScore (_tokenize wt sw text) fk.2) :
    detect_job_field wt sw text = fk.1 := by
  simp only [detect_job_field, hsplit, bestAux_append]
  have hb1 : (bestAux (_tokenize wt sw text) ("General", 0) pre).2 <
      fieldScore (_tokenize wt sw text) fk.2 :=
    bestAux_snd_lt (_tokenize wt sw text) pre ("General", 0) hpre hpos
  rw [bestAux_cons, if_pos hb1,
    bestAux_skip (_tokenize wt sw text) post (fk.1, fieldScore (_tokenize wt sw text) fk.2)
      (fun g hg => hpost g hg)]

/-- Claim C2 witness: "python html" scores 1 for both "data science" and
"web development"; the earlier field "data science" is returned. -/
theorem C2_tie_break_earliest_field_witness :
    detect_job_field (fun _ => none) none (some "python html") = "data science" :=
  C2_tie_break_earliest_field (fun _ => none) none (some "python html")
    [] (skill_keywords.drop 1)
    ("data science",
      ["python", "pandas", "numpy", "scikit-learn", "tensorflow", "keras", "pytorch",
       "machine learning", "deep learning", "nlp", "statistics", "sql", "modeling"])
    (by decide) (by decide) (by decide) (by decide) (by decide)

/-- Claim C3: a multi-word keyword is matched by word-level co-occurrence,
not adjacency: whenever every constituent word of a multi-word taxonomy
keyword is in the token set (any order, any distance), the keyword is
extracted; in particular the text "lead generation" yields
`extract_skills = ["lead generation"]` and `detect_job_field = "sales"`. -/
theorem C3_multiword_cooccurrence
    (wt : String → Option (List String)) (sw : Option (List String))
    (text : Option String) (fk : String × List String) (kw : String)
    (hfk : fk ∈ skill_keywords) (hkw : kw ∈ fk.2)
    (hmulti : 1 < (pySplitWs (pyLower kw)).length)
    (hco : ∀ p ∈ pySplitWs (pyLower kw), p ∈ _tokenize wt sw text) :
    kw ∈ extract_skills wt sw text ∧
      extract_skills (fun _ => none) none (some "lead generation") = ["lead generation"] ∧
      detect_job_field (fun _ => none) none (some "lead generation") = "sales" := by
  refine ⟨?_, by decide, by decide⟩
  have hmatch : kwMatches (_tokenize wt sw text) kw = true := by
    simp only [kwMatches, hmulti, if_true, List.all_eq_true, List.elem_eq_mem,
      decide_eq_true_eq]
    exact hco
  have hd : kw ∈ detectedList (_tokenize wt sw text) :=
    mem_detectedList.mpr ⟨fk, hfk, hkw, hmatch⟩
  simp only [extract_skills]
  exact mem_dedupAux.mpr ⟨hd, List.not_mem_nil kw⟩

/-- Claim C3 witness: the tokens "lead" and "generation" (two separate
tokens of the input) make the keyword "lead generation" extracted. -/
theorem C3_multiword_cooccurrence_witness :
    "lead generation" ∈ extract_skills (fun _ => none) none (some "lead generation") :=
  (C3_multiword_cooccurrence (fun _ => none) none (some "lead generation")
    ("sales", ["sales", "crm", "negotiation", "lead generation", "b2b", "b2c"])
    "lead generation" (by decide) (by decide) (by decide) (by decide)).1

/-- Claim C4: for every input text `extract_skills` returns a
duplicate-free list whose elements are exactly the detected keywords, in
first-detection order with respect to the taxonomy iteration (its order
is a subsequence of the raw detection sequence, and earlier output
elements have strictly earlier first detections). -/
theorem C4_extract_skills_nodup_first_detection_order
    (wt : String → Option (List String)) (sw : Option (List String))
    (text : Option String) :
    (extract_skills wt sw text).Nodup ∧
    (extract_skills wt sw text).Sublist (detectedList (_tokenize wt sw text)) ∧
    (∀ x, x ∈ extract_skills wt sw text ↔ x ∈ detectedList (_tokenize wt sw text)) ∧
    (extract_skills wt sw text).Pairwise (fun a b =>
      (detectedList (_tokenize wt sw text)).indexOf a <
        (detectedList (_tokenize wt sw text)).indexOf b) := by
  refine ⟨dedupAux_nodup _ [], dedupAux_sublist _ [], ?_,
    dedupAux_pairwise_indexOf _ []⟩
  intro x
  simp [extract_skills, mem_dedupAux]

/-- Claim C5: the taxonomy entry "scikit-learn" is unmatchable: the
tokenizer keeps only fully alphabetic tokens, so the hyphenated token can
never be in the token set; "scikit-learn" is never extracted, it never
contributes to the "data science" score (the score with it removed from
the keyword list is the same), and the maximum attainable "data science"
score is 12, which is attained. -/
theorem C5_scikit_learn_unmatchable
    (wt : String → Option (List String)) (sw : Option (List String))
    (text : Option String) (ds : List String)
    (hds : ("data science", ds) ∈ skill_keywords) :
    "scikit-learn" ∉ extract_skills wt sw text ∧
    fieldScore (_tokenize wt sw text) ds =
      fieldScore (_tokenize wt sw text) (ds.filter (fun k => k != "scikit-learn")) ∧
    fieldScore (_tokenize wt sw text) ds ≤ 12 ∧
    fieldScore (_tokenize (fun _ => none) none
        (some "python pandas numpy tensorflow keras pytorch machine learning deep nlp statistics sql modeling"))
      ds = 12 := by
  have hds' : ds = ["python", "pandas", "numpy", "scikit-learn", "tensorflow", "keras",
      "pytorch", "machine learning", "deep learning", "nlp", "statistics", "sql",
      "modeling"] := by
    simpa [skill_keywords] using hds
  subst hds'
  have hsc : kwMatches (_tokenize wt sw text) "scikit-learn" = false :=
    kwMatches_scikit_false (fun tk htk => tokenize_all_alpha htk)
  have hfilter : ∀ (l : List String),
      l.filter (fun kw => kwMatches (_tokenize wt sw text) kw) =
        (l.filter (fun k => k != "scikit-learn")).filter
          (fun kw => kwMatches (_tokenize wt sw text) kw) := by
    intro l
    rw [List.filter_filter]
    refine List.filter_congr ?_
    intro a _
    by_cases hax : a = "scikit-learn"
    · subst hax
      rw [hsc]
      rfl
    · have hne : (a != "scikit-learn") = true := by simp [hax]
      rw [hne, Bool.and_true]
  have hscore : fieldScore (_tokenize wt sw text)
      ["python", "pandas", "numpy", "scikit-learn", "tensorflow", "keras",
       "pytorch", "machine learning", "deep learning", "nlp", "statistics", "sql",
       "modeling"] =
      fieldScore (_tokenize wt sw text)
        (["python", "pandas", "numpy", "scikit-learn", "tensorflow", "keras",
          "pytorch", "machine learning", "deep learning", "nlp", "statistics", "sql",
          "modeling"].filter (fun k => k != "scikit-learn")) := by
    simp only [fieldScore]
    rw [← hfilter]
  refine ⟨scikit_not_in_extract_skills wt sw text, hscore, ?_, by decide⟩
  rw [hscore]
  have h12 : (["python", "pandas", "numpy", "scikit-learn", "tensorflow", "keras",
      "pytorch", "machine learning", "deep learning", "nlp", "statistics", "sql",
      "modeling"].filter (fun k => k != "scikit-learn")) =
      ["python", "pandas", "numpy", "tensorflow", "keras", "pytorch",
       "machine learning", "deep learning", "nlp", "statistics", "sql",
       "modeling"] := by decide
  rw [h12]
  simpa [fieldScore] using
    List.length_filter_le (fun kw => kwMatches (_tokenize wt sw text) kw)
      ["python", "pandas", "numpy", "tensorflow", "keras", "pytorch",
       "machine learning", "deep learning", "nlp", "statistics", "sql", "modeling"]

/-- Claim C5 witness: instantiation at the concrete "data science" keyword
list and a text matching the twelve matchable keywords. -/
theorem C5_scikit_learn_unmatchable_witness :
    "scikit-learn" ∉ extract_skills (fun _ => none) none (some "python") ∧
    fieldScore (_tokenize (fun _ => none) none
        (some "python pandas numpy tensorflow keras pytorch machine learning deep nlp statistics sql modeling"))
      ["python", "pandas", "numpy", "scikit-learn", "tensorflow", "keras", "pytorch",
       "machine learning", "deep learning", "nlp", "statistics", "sql", "modeling"] = 12 := by
  have h := C5_scikit_learn_unmatchable (fun _ => none) none (some "python")
    ["python", "pandas", "numpy", "scikit-learn", "tensorflow", "keras", "pytorch",
     "machine learning", "deep learning", "nlp", "statistics", "sql", "modeling"]
    (by decide)
  exact ⟨h.1, h.2.2.2⟩

/-- Claim C6: empty, absent or whitespace-only text gives no skills and
the "General" field (stated for any tokenizer that yields no tokens on
whitespace-only input, which holds for the whitespace-split fallback and
is the documented behavior of the external word tokenizer). -/
theorem C6_empty_text_defaults
    (wt : String → Option (List String)) (sw : Option (List String))
    (text : Option String)
    (hwt : ∀ s, (∀ c ∈ s.data, c.isWhitespace = true) → wt s = none ∨ wt s = some [])
    (hws : ∀ c ∈ (text.getD "").data, c.isWhitespace = true) :
    extract_skills wt sw text = [] ∧ detect_job_field wt sw text = "General" := by
  have ht : _tokenize wt sw text = [] := tokenize_eq_nil_of_ws hwt hws
  constructor
  · simp only [extract_skills, ht]
    decide
  · simp only [detect_job_field, ht]
    decide

/-- Claim C6 witness: the whitespace-only text " \t\n " with the
fallback tokenizer. -/
theorem C6_empty_text_defaults_witness :
    extract_skills (fun _ => none) none (some " \t\n ") = [] ∧
    detect_job_field (fun _ => none) none (some " \t\n ") = "General" :=
  C6_empty_text_defaults (fun _ => none) none (some " \t\n ")
    (fun _ _ => Or.inl rfl) (by decide)

/-- Claim C7: matching is case-insensitive: both entry points agree on a
text and its lowercased form (the code lowercases before tokenizing, and
lowercasing is idempotent); in particular "Python" and "PYTHON" are both
detected as the keyword "python". -/
theorem C7_case_insensitive
    (wt : String → Option (List String)) (sw : Option (List String)) (s : String) :
    extract_skills wt sw (some s) = extract_skills wt sw (some (pyLower s)) ∧
    detect_job_field wt sw (some s) = detect_job_field wt sw (some (pyLower s)) ∧
    "python" ∈ extract_skills (fun _ => none) none (some "Python") ∧
    "python" ∈ extract_skills (fun _ => none) none (some "PYTHON") := by
  have ht : _tokenize wt sw (some (pyLower s)) = _tokenize wt sw (some s) := by
    simp [_tokenize, pyLower_idem]
  exact ⟨by simp [extract_skills, ht], by simp [detect_job_field, ht],
    by decide, by decide⟩

/-- Claim C8: `extract_text_from_pdf` never surfaces a failure: with the
external PDF library modelled as an `Option`-valued page reader, any
failure (`none`: nonexistent path, corrupt file, unsupported format)
yields the empty string, and success yields the page texts joined by
newline in page order. -/
theorem C8_extract_text_from_pdf_total
    (openPdf : String → Option (List String)) (path : String) :
    (openPdf path = none → extract_text_from_pdf openPdf path = "") ∧
    (∀ pages, openPdf path = some pages →
      extract_text_from_pdf openPdf path = String.intercalate "\n" pages) := by
  constructor
  · intro h
    simp [extract_text_from_pdf, h]
  · intro pages h
    simp [extract_text_from_pdf, h]

/-- Claim C8 witness: a failing open (e.g. a nonexistent path) returns
the empty string. -/
theorem C8_extract_text_from_pdf_total_witness :
    extract_text_from_pdf (fun _ => none) "missing.pdf" = "" :=
  (C8_extract_text_from_pdf_total (fun _ => none) "missing.pdf").1 rfl

/-- Claim C9: failures are absorbed, never surfaced: if the word
tokenizer is unavailable (`wt` always fails) the code tokenizes by
whitespace splitting, and if the stopword list is unavailable
(`sw = none`) no stopword filtering is applied (only the alphabetic
filter remains); in every case a value of the declared type is
returned. -/
theorem C9_failures_absorbed
    (wt : String → Option (List String)) (sw : Option (List String))
    (text : Option String) :
    _tokenize (fun _ => none) sw text =
      (pySplitWs (pyLower (text.getD ""))).filter
        (fun tk => pyIsAlpha tk && !(sw.getD []).contains tk) ∧
    _tokenize wt none text =
      ((wt (pyLower (text.getD ""))).getD (pySplitWs (pyLower (text.getD "")))).filter
        (fun tk => pyIsAlpha tk) := by
  constructor
  · rfl
  · simp only [_tokenize]
    refine List.filter_congr ?_
    intro tk _
    simp

/-- Claim C10: `detect_job_field` returns "General" exactly when
`extract_skills` returns the empty list: both apply the same per-keyword
test to the same token set, so some field scores positively iff some
keyword is detected. -/
theorem C10_general_iff_no_skills
    (wt : String → Option (List String)) (sw : Option (List String))
    (text : Option String) :
    detect_job_field wt sw text = "General" ↔ extract_skills wt sw text = [] := by
  have hGen : "General" ∉ skill_keywords.map Prod.fst := by decide
  constructor
  · intro h
    simp only [detect_job_field] at h
    have heq : bestAux (_tokenize wt sw text) ("General", 0) skill_keywords =
        ("General", 0) :=
      bestAux_eq_init_of_fst (_tokenize wt sw text) skill_keywords ("General", 0) hGen h
    have hall : ∀ fk ∈ skill_keywords, fieldScore (_tokenize wt sw text) fk.2 = 0 := by
      intro fk hfk
      have hle := bestAux_snd_ge_of_mem (_tokenize wt sw text) skill_keywords
        ("General", 0) fk hfk
      rw [heq] at hle
      exact Nat.le_zero.mp hle
    simp only [extract_skills]
    exact (dedupAux_nil_eq_nil_iff _).mpr (detectedList_eq_nil_iff.mpr hall)
  · intro h
    simp only [extract_skills] at h
    have hall := detectedList_eq_nil_iff.mp ((dedupAux_nil_eq_nil_iff _).mp h)
    simp only [detect_job_field]
    rw [bestAux_skip (_tokenize wt sw text) skill_keywords ("General", 0)
      (fun fk hfk => by simp [hall fk hfk])]

end Analyzer
